import Mathlib

/-!
Verification development for the K-Online scraper repository
(`k_online_scraper`): a shallow embedding in Lean 4 of the
extraction-and-derivation pipeline (name normalizer, variant expander,
domain candidate builder, field extractor, listing locator) together with
theorems settling the specification's claims about it.

Modelling conventions:

* Python strings are `String` / `List Char`.  The Unicode character
  classes used by the Python code (`\w`, `\s`, `\d`, `str.lower`) are
  modelled exactly over the Basic Latin + Latin-1 repertoire that the
  pipeline's German-company-name inputs use.
* Python's `re.sub` on the patterns actually occurring in the source
  (a literal between two word boundaries `\b`, a character class, `X+`)
  is implemented directly as executable list functions.
* A Python `set` is modelled by its insertion-ordered contents plus an
  arbitrary enumeration function standing for CPython's hash-dependent
  iteration order; theorems quantify over every enumeration that is a
  permutation of the contents.
* Effectful externals (the DNS lookup in `socket.gethostbyname`, the
  compiled regex searches used by the field extractor, the third-party
  e-mail/URL validators) are oracle parameters, so theorems hold for
  every behavior of the external; fallible code returns `Option`.
-/

set_option maxRecDepth 100000

/-! ### Character classes (Python `\w`, `\s`, `str.lower`) -/

/-- Latin-1 letters (U+00C0 – U+00FF minus the two operators × and ÷).
Together with ASCII alphanumerics and `_` this models Python's Unicode
`\w` class over the repertoire used by the pipeline. -/
def latin1Letter (c : Char) : Bool :=
  0xC0 ≤ c.toNat && c.toNat ≤ 0xFF && c.toNat ≠ 0xD7 && c.toNat ≠ 0xF7

/-- Python regex `\w` (word character), modelled over ASCII + Latin-1. -/
def isWordChar (c : Char) : Bool :=
  c.isAlphanum || c == '_' || latin1Letter c

/-- Python regex `\s` / `str.strip` whitespace (the Unicode whitespace
set, written out explicitly). -/
def isPySpace (c : Char) : Bool :=
  c == ' ' || c == '\t' || c == '\n' || c == '\r' ||
  c == Char.ofNat 0x0B || c == Char.ofNat 0x0C ||
  c == Char.ofNat 0x1C || c == Char.ofNat 0x1D ||
  c == Char.ofNat 0x1E || c == Char.ofNat 0x1F ||
  c == Char.ofNat 0x85 || c == Char.ofNat 0xA0 ||
  c == Char.ofNat 0x1680 ||
  c == Char.ofNat 0x2000 || c == Char.ofNat 0x2001 ||
  c == Char.ofNat 0x2002 || c == Char.ofNat 0x2003 ||
  c == Char.ofNat 0x2004 || c == Char.ofNat 0x2005 ||
  c == Char.ofNat 0x2006 || c == Char.ofNat 0x2007 ||
  c == Char.ofNat 0x2008 || c == Char.ofNat 0x2009 ||
  c == Char.ofNat 0x200A || c == Char.ofNat 0x2028 ||
  c == Char.ofNat 0x2029 || c == Char.ofNat 0x202F ||
  c == Char.ofNat 0x205F || c == Char.ofNat 0x3000

/-- The uppercase → lowercase table of Python's `str.lower` over
ASCII + Latin-1 (À–Þ shift by 0x20; × is not a letter; ß has no
uppercase here). -/
def lowerPairs : List (Char × Char) :=
  [('A', 'a'), ('B', 'b'), ('C', 'c'), ('D', 'd'), ('E', 'e'), ('F', 'f'),
   ('G', 'g'), ('H', 'h'), ('I', 'i'), ('J', 'j'), ('K', 'k'), ('L', 'l'),
   ('M', 'm'), ('N', 'n'), ('O', 'o'), ('P', 'p'), ('Q', 'q'), ('R', 'r'),
   ('S', 's'), ('T', 't'), ('U', 'u'), ('V', 'v'), ('W', 'w'), ('X', 'x'),
   ('Y', 'y'), ('Z', 'z'),
   ('À', 'à'), ('Á', 'á'), ('Â', 'â'), ('Ã', 'ã'), ('Ä', 'ä'), ('Å', 'å'),
   ('Æ', 'æ'), ('Ç', 'ç'), ('È', 'è'), ('É', 'é'), ('Ê', 'ê'), ('Ë', 'ë'),
   ('Ì', 'ì'), ('Í', 'í'), ('Î', 'î'), ('Ï', 'ï'), ('Ð', 'ð'), ('Ñ', 'ñ'),
   ('Ò', 'ò'), ('Ó', 'ó'), ('Ô', 'ô'), ('Õ', 'õ'), ('Ö', 'ö'), ('Ø', 'ø'),
   ('Ù', 'ù'), ('Ú', 'ú'), ('Û', 'û'), ('Ü', 'ü'), ('Ý', 'ý'), ('Þ', 'þ')]

/-- Python `str.lower` on one character (ASCII + Latin-1). -/
def pyToLower (c : Char) : Char :=
  match lowerPairs.lookup c with
  | some d => d
  | none => c

/-- Case-insensitive character comparison as performed by `re.IGNORECASE`
(simple case folding: compare lowercased characters). -/
def ciEq (c d : Char) : Bool := pyToLower c == pyToLower d

/-! ### Generic string machinery for the regex substitutions -/

/-- Collapse every maximal run of characters satisfying `p` into the
single character `r`: the effect of `re.sub(⟨class⟩+, r, s)`. -/
def collapseRuns (p : Char → Bool) (r : Char) : List Char → List Char
  | [] => []
  | [c] => if p c then [r] else [c]
  | c :: d :: rest =>
    if p c && p d then collapseRuns p r (d :: rest)
    else (if p c then r else c) :: collapseRuns p r (d :: rest)

/-- Drop characters satisfying `p` from the right end of a list
(the right half of Python's `str.strip`). -/
def dropWhileRight (p : Char → Bool) : List Char → List Char
  | [] => []
  | c :: rest =>
    match dropWhileRight p rest with
    | [] => if p c then [] else [c]
    | r => c :: r

/-- Python's `str.strip(chars)`: drop `p`-characters from both ends. -/
def pyStripWith (p : Char → Bool) (l : List Char) : List Char :=
  dropWhileRight p (l.dropWhile p)

/-- Python's `str.strip()` (whitespace strip) on a `String`. -/
def pyStripStr (s : String) : String :=
  String.mk (pyStripWith isPySpace s.toList)

/-- Case-insensitive match of the literal `pat` against a prefix of `s`
(`re.IGNORECASE` literal matching). -/
def matchCI : List Char → List Char → Bool
  | [], _ => true
  | _ :: _, [] => false
  | p :: ps, c :: cs => ciEq p c && matchCI ps cs

/-- Word-character test lifted to the virtual positions before the start
and after the end of the string (`none` counts as non-word). -/
def isWordOpt : Option Char → Bool
  | none => false
  | some c => isWordChar c

/-- A `\b` word boundary holds between two (possibly virtual) characters
iff exactly one side is a word character. -/
def wordBoundary (a b : Option Char) : Bool := isWordOpt a != isWordOpt b

/-- Worker for `subWord`: left-to-right scan of `re.sub` with the
original-string context char `prev` carried along (Python evaluates the
`\b` assertions against the original string). Fuel is the number of
remaining scan steps; every step consumes at least one character, so
`s.length + 1` fuel is always enough. -/
def subWordAux (pat : List Char) : Nat → Option Char → List Char → List Char
  | 0, _, s => s
  | _ + 1, _, [] => []
  | fuel + 1, prev, c :: rest =>
    if wordBoundary prev (some c) && matchCI pat (c :: rest) &&
        wordBoundary ((c :: rest).take pat.length).getLast? ((c :: rest).drop pat.length).head? then
      subWordAux pat fuel ((c :: rest).take pat.length).getLast? ((c :: rest).drop pat.length)
    else
      c :: subWordAux pat fuel (some c) rest

/-- `re.sub(rf'\b{re.escape(pat)}\b', '', s, flags=re.IGNORECASE)`:
delete every whole-word, case-insensitive occurrence of the literal
`pat`. -/
def subWord (pat : List Char) (s : List Char) : List Char :=
  if pat.isEmpty then s else subWordAux pat (s.length + 1) none s

/-! ### The name normalizer (`clean_company_name`, validators.py) -/

/-- The fixed legal-entity suffix list of `clean_company_name`. -/
def legal_suffixes : List String :=
  ["GmbH", "AG", "KG", "OHG", "e.V.", "e.K.", "UG", "Ltd.", "Inc.",
   "Corp.", "LLC", "Co.", "& Co.", "mbH", "gGmbH"]

/-- The sequential suffix-stripping loop of `clean_company_name`:
one whole-word case-insensitive `re.sub` per legal suffix. -/
def stripSuffixes (l : List Char) : List Char :=
  legal_suffixes.foldl (fun acc suf => subWord suf.toList acc) l

/-- The diacritic replacement table of `clean_company_name`.  The Python
dict literal writes the key 'ü' twice ('ue' on the first line, 'u' in the
single-character row); Python dict semantics keep the first position with
the last value, so the effective table maps 'ü' to "u". -/
def foldPairs : List (Char × String) :=
  [('ä', "ae"), ('ö', "oe"), ('ü', "u"), ('ß', "ss"),
   ('á', "a"), ('à', "a"), ('â', "a"), ('ã', "a"),
   ('é', "e"), ('è', "e"), ('ê', "e"), ('ë', "e"),
   ('í', "i"), ('ì', "i"), ('î', "i"), ('ï', "i"),
   ('ó', "o"), ('ò', "o"), ('ô', "o"), ('õ', "o"),
   ('ú', "u"), ('ù', "u"), ('û', "u"),
   ('ñ', "n"), ('ç', "c")]

/-- Python `str.replace(k, v)` for a single-character pattern `k`. -/
def pyReplaceChar (k : Char) (v : List Char) (l : List Char) : List Char :=
  l.flatMap (fun c => if c == k then v else [c])

/-- The sequence of `str.replace` calls over the diacritic table. -/
def foldDiacritics (l : List Char) : List Char :=
  foldPairs.foldl (fun acc kv => pyReplaceChar kv.1 kv.2.toList acc) l

/-- The character-level pipeline of `clean_company_name` after the empty
check: strip legal suffixes, remove `[^\w\s-]`, strip whitespace and
collapse `\s+` to '-', lowercase, fold diacritics, collapse `-+` to '-',
strip '-' from the ends. -/
def cleanList (l : List Char) : List Char :=
  pyStripWith (fun c => c == '-')
    (collapseRuns (fun c => c == '-') '-'
      (foldDiacritics
        ((collapseRuns isPySpace '-'
          (pyStripWith isPySpace
            ((stripSuffixes l).filter
              (fun c => isWordChar c || isPySpace c || c == '-')))).map pyToLower)))

/-- `clean_company_name` (validators.py): normalize a company name into a
lowercase hyphen-delimited slug. -/
def clean_company_name (name : String) : String :=
  if name = "" then "" else String.mk (cleanList name.toList)

-- sanity checks (concrete behavior of the Python function)
example : clean_company_name "Mustermann GmbH" = "mustermann" := by decide
example : clean_company_name "Müller & Co. KG" = "muller-co" := by decide
example : clean_company_name "ÁG" = "ag" := by decide
example : clean_company_name "ag" = "" := by decide
example : clean_company_name "Alpha Beta" = "alpha-beta" := by decide

/-! ### Phone normalizer (`normalize_phone_number`, validators.py) -/

/-- `normalize_phone_number` (validators.py): keep every character
matching `[\d+]` (ASCII digits over the pipeline's repertoire), then, if
the result is non-empty and does not start with '+', replace a leading
'0' by "+49" or prepend "+49". -/
def normalize_phone_number (phone : String) : String :=
  if phone = "" then "" else
  let normalized := phone.toList.filter (fun c => c.isDigit || c == '+')
  if normalized ≠ [] ∧ normalized.head? ≠ some '+' then
    if normalized.head? = some '0' then String.mk ('+' :: '4' :: '9' :: normalized.tail)
    else String.mk ('+' :: '4' :: '9' :: normalized)
  else String.mk normalized

example : normalize_phone_number "030 1234567" = "+49301234567" := by decide
example : normalize_phone_number "+49 30 1234567" = "+49301234567" := by decide
example : normalize_phone_number "030+12" = "+4930+12" := by decide

/-! ### Substring utilities (Python `in`, `str.replace`, `str.split`) -/

/-- Python's substring test `sub in s`. -/
def containsStr (sub s : String) : Bool :=
  s.toList.tails.any (fun t => sub.toList.isPrefixOf t)

/-- Python's `str.startswith`. -/
def pyStartsWith (pre s : String) : Bool :=
  pre.toList.isPrefixOf s.toList

/-- Python's `str.split(sep)` for a one-character separator, on
character lists (`"".split(sep) == [""]`, empty parts kept). -/
def splitOnCharList (sep : Char) : List Char → List (List Char)
  | [] => [[]]
  | c :: rest =>
    match splitOnCharList sep rest with
    | [] => [[]]
    | h :: t => if c == sep then [] :: h :: t else (c :: h) :: t

/-- Python's `str.split(sep)` for a one-character separator. -/
def splitOnChar (sep : Char) (s : String) : List String :=
  (splitOnCharList sep s.toList).map String.mk

/-- Python's `sep.join(words)` for a one-character separator. -/
def joinWith (sep : Char) : List String → String
  | [] => ""
  | [w] => w
  | w :: x :: rest => w ++ String.mk [sep] ++ joinWith sep (x :: rest)

/-- Worker for `replaceAllStr`: left-to-right non-overlapping
replacement, one fuel unit per consumed character. -/
def replaceAllAux (pat rep : List Char) : Nat → List Char → List Char
  | 0, s => s
  | _ + 1, [] => []
  | fuel + 1, c :: rest =>
    if pat.isPrefixOf (c :: rest) then
      rep ++ replaceAllAux pat rep fuel ((c :: rest).drop pat.length)
    else c :: replaceAllAux pat rep fuel rest

/-- Python's `str.replace(pat, rep)` for a non-empty pattern (the
source only replaces 5-digit postal codes, which are never empty). -/
def replaceAllStr (pat rep s : String) : String :=
  if pat.toList.isEmpty then s
  else String.mk (replaceAllAux pat.toList rep.toList (s.toList.length + 1) s.toList)

/-! ### Postal code and address parsing (validators.py) -/

/-- Worker for `extract_postal_code`: scan for the first match of
`\b(\d{5})\b` (Python `re.search`), carrying the previous original
character for the leading boundary test. -/
def findPostalAux : Nat → Option Char → List Char → Option String
  | 0, _, _ => none
  | _ + 1, _, [] => none
  | fuel + 1, prev, c :: rest =>
    let five := (c :: rest).take 5
    if five.length = 5 && five.all Char.isDigit &&
        wordBoundary prev (some c) &&
        wordBoundary five.getLast? ((c :: rest).drop 5).head? then
      some (String.mk five)
    else findPostalAux fuel (some c) rest

/-- `extract_postal_code` (validators.py): first whole-word 5-digit run. -/
def extract_postal_code (address_text : String) : Option String :=
  if address_text = "" then none
  else findPostalAux (address_text.toList.length + 1) none address_text.toList

example : extract_postal_code "Musterstraße 1\n10115 Berlin" = some "10115" := by decide
example : extract_postal_code "123456" = none := by decide

/-- The fields produced by `parse_address` (validators.py). -/
structure AddressParts where
  postal_code : Option String
  address : Option String
  city : Option String
deriving DecidableEq

/-- `parse_address` (validators.py): extract the postal code, take the
first non-empty stripped line as the street address, and derive the city
from the first line containing the postal code with the code substring
removed. -/
def parse_address (address_text : String) : AddressParts :=
  if address_text = "" then ⟨none, none, none⟩ else
  let postal := extract_postal_code address_text
  let lines := ((splitOnChar '\n' address_text).map pyStripStr).filter (fun ln => ln ≠ "")
  match lines with
  | [] => ⟨postal, none, none⟩
  | l₀ :: _ =>
    let city :=
      match postal with
      | none => none
      | some pc =>
        match lines.find? (fun ln => containsStr pc ln) with
        | none => none
        | some ln =>
          let cityPart := pyStripStr (replaceAllStr pc "" ln)
          if cityPart ≠ "" then some cityPart else none
    ⟨postal, some l₀, city⟩

example : parse_address "Musterstraße 1\n10115 Berlin" =
    ⟨some "10115", some "Musterstraße 1", some "Berlin"⟩ := by decide

/-! ### Record validation (`validate_company_data`, validators.py) -/

/-- The intermediate field bag assembled by the extractor (Python's
`company_data` dict; `none` models an absent key, `some ""` an empty
value — both are falsy to the validation loop). -/
structure CompanyData where
  company_name : String := ""
  address : Option String := none
  city : Option String := none
  country : Option String := none
  postal_code : Option String := none
  phone : Option String := none
  email : Option String := none
  website : Option String := none
  description : Option String := none
  industry : Option String := none
  booth_number : Option String := none
  contact_person : Option String := none
  source_url : Option String := none

/-- The validated record returned by `validate_company_data`.  Note that
the Python `fields_mapping` loop does not copy `source_url`, so the
validated record has no such field. -/
structure ValidatedCompany where
  company_name : String
  address : Option String
  city : Option String
  country : Option String
  postal_code : Option String
  phone : Option String
  email : Option String
  website : Option String
  description : Option String
  industry : Option String
  booth_number : Option String
  contact_person : Option String
deriving DecidableEq

/-- One pass of the optional-field loop body of `validate_company_data`
for a plain string field: keep the stripped value iff it is truthy. -/
def keepField (v : Option String) : Option String :=
  match v with
  | none => none
  | some s => if s ≠ "" then some (pyStripStr s) else none

/-- Loop body for the `email`/`website` fields: additionally drop the
field when the external validator rejects it. -/
def keepChecked (ok : String → Bool) (v : Option String) : Option String :=
  match v with
  | none => none
  | some s => if s ≠ "" then (if ok s then some (pyStripStr s) else none) else none

/-- `validate_company_data` (validators.py).  `validEmail`/`validUrl`
are oracles for the third-party `validators.email`/`validators.url`
predicates.  A `ValueError` (empty company name after strip) is
modelled as `none`. -/
def validate_company_data (validEmail validUrl : String → Bool)
    (d : CompanyData) : Option ValidatedCompany :=
  let nm := pyStripStr d.company_name
  if nm = "" then none
  else some
    { company_name := nm
      address := keepField d.address
      city := keepField d.city
      country := keepField d.country
      postal_code := keepField d.postal_code
      phone := keepField d.phone
      email := keepChecked validEmail d.email
      website := keepChecked validUrl d.website
      description := keepField d.description
      industry := keepField d.industry
      booth_number := keepField d.booth_number
      contact_person := keepField d.contact_person }

/-! ### Domain syntax validation and DNS probing (validators.py) -/

/-- One dot-separated label of a domain name: non-empty, ASCII
alphanumerics and hyphens, neither starting nor ending with a hyphen. -/
def validLabel (l : String) : Bool :=
  match l.toList with
  | [] => false
  | c :: rest =>
    (c :: rest).all (fun x => x.isAlphanum || x == '-') &&
    !(c == '-') && !((c :: rest).getLast? = some '-')

/-- Model of the third-party `validators.domain` predicate used by
`validate_domain` (validators.py wraps it in a try/except returning
`False`); the library itself is an external dependency, not part of this
repository.  Accepts dot-separated valid labels with an alphabetic final
label of length ≥ 2. -/
def validate_domain (s : String) : Bool :=
  let labels := splitOnChar '.' s
  labels.length ≥ 2 && labels.all validLabel &&
  (match labels.getLast? with
   | some t => t.length ≥ 2 && t.toList.all Char.isAlpha
   | none => false)

example : validate_domain "mustermann.de" = true := by decide
example : validate_domain "mustermann24.com" = true := by decide

/-- The three behaviors of the external `socket.gethostbyname` call:
successful resolution, a `socket.gaierror`, or any other exception
(timeouts included). -/
inductive DnsOutcome
  | resolved
  | gaierror
  | otherExn
deriving DecidableEq

/-- `check_domain_availability` (validators.py): 'error' for an invalid
domain, else map the DNS outcome — resolution means 'taken', `gaierror`
means 'available', any other exception is caught and mapped to 'error'.
Every exception of the body is handled, so the function is total. -/
def check_domain_availability (valid : String → Bool) (dns : String → DnsOutcome)
    (domain : String) (timeout : Nat) : String :=
  if !valid domain then "error"
  else
    let _ := timeout
    match dns domain with
    | .resolved => "taken"
    | .gaierror => "available"
    | .otherExn => "error"

/-! ### Variant expander (`DomainGenerator.generate_domain_variants`) -/

/-- The stop-word list of `DomainGenerator._create_short_variant`. -/
def common_words : List String :=
  ["gmbh", "ag", "kg", "ohg", "ev", "ek", "ug", "ltd", "inc",
   "corp", "llc", "co", "company", "systems", "solutions",
   "services", "international", "group", "holding", "consulting",
   "engineering", "technology", "tech", "software", "digital",
   "and", "und", "the", "der", "die", "das"]

/-- Python `str.lower` on a whole string. -/
def lowerStr (s : String) : String := String.mk (s.toList.map pyToLower)

/-- `DomainGenerator._create_short_variant`: drop every hyphen-separated
word whose lowercase form is a stop word; fall back to the input when
every word is dropped. -/
def create_short_variant (name : String) : String :=
  let words := (splitOnChar '-' name).filter (fun w => !(common_words.contains (lowerStr w)))
  if words.isEmpty then name else joinWith '-' words

/-- `set.add`: append iff not already present (the set's contents in
insertion order). -/
def addElem (l : List String) (x : String) : List String :=
  if x ∈ l then l else l ++ [x]

/-- The contents, in insertion order, of the `variants` set built by
`DomainGenerator.generate_domain_variants`: the cleaned base name, the
hyphen-free form, the abbreviation, the short variant, and — only if the
set is still below `maxVariants` — the three numeric-suffixed forms. -/
def variantSetContents (maxVariants : Nat) (company_name : String) : List String :=
  if company_name = "" then [] else
  let base := clean_company_name company_name
  if base = "" then [] else
  let v₁ := addElem [] base
  let noHyphens := String.mk (base.toList.filter (fun c => !(c == '-')))
  let v₂ := if noHyphens ≠ "" ∧ noHyphens ≠ base then addElem v₁ noHyphens else v₁
  let words := (splitOnChar '-' base).filter (fun w => w ≠ "")
  let abbreviation := String.mk (words.foldr (fun w acc => w.toList.take 1 ++ acc) [])
  let v₃ := if words.length > 1 ∧ abbreviation.length ≥ 2 then addElem v₂ abbreviation else v₂
  let shortVariant := create_short_variant base
  let v₄ := if shortVariant ≠ "" ∧ shortVariant ≠ base then addElem v₃ shortVariant else v₃
  if v₄.length < maxVariants then
    addElem (addElem (addElem v₄ (base ++ "24")) (base ++ "365")) (base ++ "2024")
  else v₄

/-- `DomainGenerator.generate_domain_variants`: `list(variants)[:max]`.
`order` models CPython's hash-dependent set iteration order turning the
set into a list; theorems quantify over every `order` producing a
permutation of the insertion-ordered contents. -/
def generate_domain_variants (maxVariants : Nat) (company_name : String)
    (order : List String → List String) : List String :=
  (order (variantSetContents maxVariants company_name)).take maxVariants

example : variantSetContents 5 "Mustermann GmbH" =
    ["mustermann", "mustermann24", "mustermann365", "mustermann2024"] := by decide
example : variantSetContents 3 "Mustermann GmbH" =
    ["mustermann", "mustermann24", "mustermann365", "mustermann2024"] := by decide

/-! ### Domain candidate builder (`DomainGenerator.generate_full_domains`) -/

/-- One generated domain candidate (the `domain_info` dict). -/
structure DomainCandidate where
  domain : String
  variant : String
  tld : String
  status : String
deriving DecidableEq

/-- The inner `for tld in tlds` loop of `generate_full_domains`:
skip candidates failing domain validation; set `status` from the
availability check when enabled, else leave it "unknown".  (The
`try/except` around the check is unreachable in the model because
`check_domain_availability` already catches every exception.) -/
def tldLoop (valid : String → Bool) (dns : String → DnsOutcome)
    (check : Bool) (timeout : Nat) (variant : String) : List String → List DomainCandidate
  | [] => []
  | tld :: rest =>
    let domain := variant ++ tld
    if !valid domain then tldLoop valid dns check timeout variant rest
    else
      { domain := domain, variant := variant, tld := tld,
        status := if check then check_domain_availability valid dns domain timeout
                  else "unknown" } :: tldLoop valid dns check timeout variant rest

/-- The outer `for variant in variants` loop of `generate_full_domains`. -/
def variantLoop (valid : String → Bool) (dns : String → DnsOutcome)
    (check : Bool) (timeout : Nat) (tlds : List String) : List String → List DomainCandidate
  | [] => []
  | v :: rest =>
    tldLoop valid dns check timeout v tlds ++ variantLoop valid dns check timeout tlds rest

/-- `DomainGenerator.generate_full_domains`: expand the company name to
variants and emit one candidate per valid (variant, tld) pair.  `valid`
is the domain-syntax predicate, `dns` the DNS oracle, `order` the set
iteration order of the variant set. -/
def generate_full_domains (valid : String → Bool) (dns : String → DnsOutcome)
    (check : Bool) (timeout : Nat) (maxVariants : Nat) (tlds : List String)
    (order : List String → List String) (company_name : String) : List DomainCandidate :=
  variantLoop valid dns check timeout tlds
    (generate_domain_variants maxVariants company_name order)

example :
    generate_full_domains validate_domain (fun _ => .gaierror) false 5 5 [".de", ".com"]
      id "Mustermann GmbH" =
    [⟨"mustermann.de", "mustermann", ".de", "unknown"⟩,
     ⟨"mustermann.com", "mustermann", ".com", "unknown"⟩,
     ⟨"mustermann24.de", "mustermann24", ".de", "unknown"⟩,
     ⟨"mustermann24.com", "mustermann24", ".com", "unknown"⟩,
     ⟨"mustermann365.de", "mustermann365", ".de", "unknown"⟩,
     ⟨"mustermann365.com", "mustermann365", ".com", "unknown"⟩,
     ⟨"mustermann2024.de", "mustermann2024", ".de", "unknown"⟩,
     ⟨"mustermann2024.com", "mustermann2024", ".com", "unknown"⟩] := by decide

/-! ### Listing locator (`KOnlineScraper._scrape_page_with_requests`) -/

/-- One element of a parsed page, abstracted to its stripped visible
text (`get_text(strip=True)`). -/
structure Element where
  text : String
deriving DecidableEq

/-- A parsed page document: the result of `soup.select` for each CSS
selector string, and the block-level containers returned by
`soup.find_all(['div', 'article', 'section'])`. -/
structure Page where
  select : String → List Element
  blocks : List Element

/-- The fixed selector priority list of the scraper. -/
def company_selectors : List String :=
  [".exhibitor-item", ".company-item", ".listing-item", ".directory-entry",
   "[class*=\"exhibitor\"]", "[class*=\"company\"]", "[class*=\"listing\"]"]

/-- The `for selector in company_selectors` loop: return the first
selector's matches that are non-empty; later selectors are not tried. -/
def selectFirst (p : Page) : List String → List Element
  | [] => []
  | s :: rest =>
    let els := p.select s
    if els ≠ [] then els else selectFirst p rest

/-- Five consecutive ASCII digits somewhere in the text
(`re.search(r'\d{5}', text)`, no word boundaries here). -/
def hasDigitRun5 : List Char → Bool
  | a :: b :: c :: d :: e :: rest =>
    (a.isDigit && b.isDigit && c.isDigit && d.isDigit && e.isDigit) ||
    hasDigitRun5 (b :: c :: d :: e :: rest)
  | _ => false

/-- The content-heuristic fallback of the locator: keep block elements
whose text is longer than 50 characters, mentions a legal-entity
keyword, and contains a 5-digit run or an '@'. -/
def contentFallback (p : Page) : List Element :=
  p.blocks.filter (fun el =>
    el.text.length > 50 &&
    (["gmbh", "ag", "kg", "ltd", "inc", "corp"].any
      (fun kw => containsStr kw (lowerStr el.text))) &&
    (hasDigitRun5 el.text.toList || containsStr "@" el.text))

/-- The listing-locator part of `_scrape_page_with_requests`: the first
successful selector's matches, else the content-heuristic fallback. -/
def locate (p : Page) : List Element :=
  let els := selectFirst p company_selectors
  if els ≠ [] then els else contentFallback p

/-! ### Field extractor (`KOnlineScraper._parse_company_from_element`) -/

/-- The configured directory base URL (config/settings.py). -/
def K_ONLINE_BASE_URL : String := "https://www.k-online.de/vis/v1/de/directory/a"

/-- One listing element as seen by the field extractor, abstracted to
the results of its BeautifulSoup queries: the first h2/h3/h4 with a
name/title-matching class, the first h2/h3/h4 at all, the stripped texts
of all `strong` descendants, the full element text, the stripped texts
of address/contact-classed blocks, the `href` targets of all links, and
the stripped texts of category/industry/sector-classed elements. -/
structure ListingElement where
  namedHeading : Option String
  anyHeading : Option String
  strongs : List String
  text : String
  addressBlocks : List String
  links : List String
  categories : List String

/-- The company-name heuristic chain of the extractor: a name/title
heading, else any heading, else the first `strong` text longer than 5
characters whose first 5 characters contain no digit. -/
def resolveName (el : ListingElement) : Option String :=
  match el.namedHeading with
  | some t => some t
  | none =>
    match el.anyHeading with
    | some t => some t
    | none =>
      el.strongs.find? (fun t =>
        t.length > 5 && !((t.toList.take 5).any Char.isDigit))

/-- The `for pattern in phone_patterns` loop: take the first regex
match whose normalization is a non-empty phone number.  Each element of
`searches` is an oracle for one compiled pattern's
`re.search(...).group(1)` on the element text. -/
def findPhone (searches : List (String → Option String)) (text : String) : Option String :=
  match searches with
  | [] => none
  | f :: rest =>
    match f text with
    | some m =>
      let p := normalize_phone_number m
      if p ≠ "" then some p else findPhone rest text
    | none => findPhone rest text

/-- `KOnlineScraper._parse_company_from_element`: assemble the field bag
from the heuristics and pass it through `validate_company_data`;
`none` models the `return None` paths (no usable name, or the
`ValueError` caught by the surrounding try/except).  The regex searches
for phone, e-mail and booth number and the third-party e-mail/URL
validators are oracle parameters. -/
def parse_company_from_element
    (phoneSearches : List (String → Option String))
    (emailSearch boothSearch : String → Option String)
    (validEmail validUrl : String → Bool)
    (el : ListingElement) (source_url : String) : Option ValidatedCompany :=
  match resolveName el with
  | none => none
  | some nm =>
    if nm = "" then none else
    let addressText := String.join ((el.addressBlocks.filter (fun t => t ≠ "")).map (fun t => t ++ "\n"))
    let d₀ : CompanyData := { company_name := nm }
    let d₁ :=
      if addressText ≠ "" then
        let pa := parse_address addressText
        { d₀ with postal_code := pa.postal_code, city := pa.city,
                  address := some (pyStripStr addressText) }
      else d₀
    let d₂ := { d₁ with phone := findPhone phoneSearches el.text }
    let d₃ := { d₂ with email := emailSearch el.text }
    let site := el.links.find? (fun h => pyStartsWith "http" h && !(containsStr "k-online.de" h))
    let d₄ := { d₃ with website := site }
    let d₅ := { d₄ with booth_number := boothSearch el.text }
    let d₆ := { d₅ with industry := el.categories.find? (fun t => t ≠ "") }
    let src := if source_url ≠ "" then source_url else K_ONLINE_BASE_URL
    let d₇ := { d₆ with source_url := some src }
    validate_company_data validEmail validUrl d₇

/-- An empty / whitespace-only listing element: every query comes back
empty. -/
def emptyElement : ListingElement :=
  ⟨none, none, [], "   ", [], [], []⟩

example :
    parse_company_from_element [] (fun _ => none) (fun _ => none)
      (fun _ => true) (fun _ => true) emptyElement "" = none := by decide

example :
    parse_company_from_element [] (fun _ => none) (fun _ => none)
      (fun _ => true) (fun _ => true)
      ⟨some "ACME GmbH", none, [], "", [], [], []⟩ "" =
    some ⟨"ACME GmbH", none, none, none, none, none, none, none, none, none, none, none⟩ := by
  decide

/-! ### Helper lemmas: association lookups and character tables -/

/-- Whether a list has two adjacent characters both satisfying `p`. -/
def hasAdjPair (p : Char → Bool) : List Char → Bool
  | c :: d :: rest => (p c && p d) || hasAdjPair p (d :: rest)
  | _ => false

theorem mem_of_lookup_eq_some {α β : Type} [BEq α] [LawfulBEq α]
    {l : List (α × β)} {a : α} {b : β} (h : l.lookup a = some b) : (a, b) ∈ l := by
  induction l with
  | nil => simp [List.lookup] at h
  | cons kv t ih =>
    rw [List.lookup] at h
    rcases hk : a == kv.1 with _ | _
    · rw [hk] at h
      exact List.mem_cons_of_mem _ (ih h)
    · rw [hk] at h
      have ha : a = kv.1 := eq_of_beq hk
      cases h
      have he : (a, kv.2) = kv := by rw [ha]
      rw [he]
      exact List.mem_cons_self _ _

set_option maxHeartbeats 2000000 in
theorem lowerPairs_value_not_key : ∀ p ∈ lowerPairs, lowerPairs.lookup p.2 = none := by decide

set_option maxHeartbeats 2000000 in
theorem lowerPairs_value_word : ∀ p ∈ lowerPairs, isWordChar p.2 = true := by decide

set_option maxHeartbeats 2000000 in
theorem lowerPairs_value_not_space : ∀ p ∈ lowerPairs, isPySpace p.2 = false := by decide

theorem pyToLower_idem (c : Char) : pyToLower (pyToLower c) = pyToLower c := by
  cases h : lowerPairs.lookup c with
  | none =>
    unfold pyToLower
    rw [h]
    show (match lowerPairs.lookup c with | some e => e | none => c) = c
    rw [h]
  | some d =>
    have hd : lowerPairs.lookup d = none :=
      lowerPairs_value_not_key (c, d) (mem_of_lookup_eq_some h)
    unfold pyToLower
    rw [h]
    show (match lowerPairs.lookup d with | some e => e | none => d) = d
    rw [hd]

theorem pyToLower_word {c : Char} (h : isWordChar c = true) :
    isWordChar (pyToLower c) = true := by
  cases hl : lowerPairs.lookup c with
  | none =>
    unfold pyToLower
    rw [hl]
    exact h
  | some d =>
    unfold pyToLower
    rw [hl]
    exact lowerPairs_value_word (c, d) (mem_of_lookup_eq_some hl)

theorem pyToLower_not_space (c : Char) (h : isPySpace c = false) :
    isPySpace (pyToLower c) = false := by
  cases hl : lowerPairs.lookup c with
  | none =>
    unfold pyToLower
    rw [hl]
    exact h
  | some d =>
    unfold pyToLower
    rw [hl]
    exact lowerPairs_value_not_space (c, d) (mem_of_lookup_eq_some hl)

theorem pyToLower_hyphen : pyToLower '-' = '-' := by decide

/-! ### Helper lemmas: membership and adjacency -/

theorem toList_mk (l : List Char) : (String.mk l).toList = l := rfl

theorem clean_company_name_of_ne {s : String} (hs : ¬ s = "") :
    clean_company_name s = String.mk (cleanList s.toList) := by
  unfold clean_company_name
  rw [if_neg hs]

theorem clean_toList_of_ne {s : String} (hs : ¬ s = "") :
    (clean_company_name s).toList = cleanList s.toList := by
  rw [clean_company_name_of_ne hs, toList_mk]

theorem mem_of_head?_eq {l : List Char} {c : Char} (h : l.head? = some c) : c ∈ l := by
  cases l with
  | nil => cases h
  | cons a t =>
    cases h
    exact List.mem_cons_self _ _

theorem mem_of_getLast?_eq : ∀ {l : List Char} {c : Char}, l.getLast? = some c → c ∈ l := by
  intro l
  induction l with
  | nil => intro c h; cases h
  | cons a t ih =>
    intro c h
    cases t with
    | nil =>
      cases h
      exact List.mem_cons_self _ _
    | cons b u =>
      rw [List.getLast?_cons_cons] at h
      exact List.mem_cons_of_mem _ (ih h)

theorem hasAdjPair_cons_eq (p : Char → Bool) (x : Char) (l : List Char) :
    hasAdjPair p (x :: l) =
      ((match l.head? with | some y => p x && p y | none => false) || hasAdjPair p l) := by
  cases l <;> simp [hasAdjPair]

theorem hasAdjPair_append_left {p : Char → Bool} :
    ∀ {l t : List Char}, hasAdjPair p (l ++ t) = false → hasAdjPair p l = false := by
  intro l
  induction l with
  | nil => intro t _; rfl
  | cons c l' ih =>
    intro t h
    cases l' with
    | nil => rfl
    | cons d u =>
      rw [List.cons_append, List.cons_append] at h
      rw [hasAdjPair] at h ⊢
      rw [Bool.or_eq_false_iff] at h ⊢
      exact ⟨h.1, ih h.2⟩

theorem hasAdjPair_append_right {p : Char → Bool} :
    ∀ (t : List Char) {l : List Char}, hasAdjPair p (t ++ l) = false → hasAdjPair p l = false := by
  intro t
  induction t with
  | nil => intro l h; exact h
  | cons a t' ih =>
    intro l h
    rw [List.cons_append, hasAdjPair_cons_eq, Bool.or_eq_false_iff] at h
    exact ih h.2

/-! ### Helper lemmas: `collapseRuns` -/

theorem mem_collapseRuns {p : Char → Bool} {r x : Char} :
    ∀ {l : List Char}, x ∈ collapseRuns p r l → x = r ∨ (x ∈ l ∧ p x = false) := by
  intro l
  induction l with
  | nil => intro h; simp [collapseRuns] at h
  | cons c t ih =>
    cases t with
    | nil =>
      intro h
      by_cases hc : p c = true
      · simp [collapseRuns, hc] at h
        left
        exact h
      · simp [collapseRuns, hc] at h
        right
        refine ⟨by rw [h]; exact List.mem_cons_self _ _, ?_⟩
        rw [h]
        exact Bool.not_eq_true _ ▸ (by simpa using hc)
    | cons d u =>
      intro h
      by_cases hcd : (p c && p d) = true
      · rw [show collapseRuns p r (c :: d :: u) = collapseRuns p r (d :: u) by
          simp [collapseRuns, hcd]] at h
        rcases ih h with h₁ | ⟨h₂, h₃⟩
        · left; exact h₁
        · right; exact ⟨List.mem_cons_of_mem _ h₂, h₃⟩
      · rw [show collapseRuns p r (c :: d :: u) =
            (if p c then r else c) :: collapseRuns p r (d :: u) by
          simp [collapseRuns, hcd]] at h
        rcases List.mem_cons.mp h with h₁ | h₁
        · by_cases hc : p c = true
          · left; rw [h₁, if_pos hc]
          · right
            rw [h₁, if_neg hc]
            refine ⟨List.mem_cons_self _ _, ?_⟩
            simpa using hc
        · rcases ih h₁ with h₂ | ⟨h₃, h₄⟩
          · left; exact h₂
          · right; exact ⟨List.mem_cons_of_mem _ h₃, h₄⟩

theorem collapseRuns_eq_self_of_not {p : Char → Bool} {r : Char} :
    ∀ {l : List Char}, (∀ c ∈ l, p c = false) → collapseRuns p r l = l := by
  intro l
  induction l with
  | nil => intro _; rfl
  | cons c t ih =>
    intro h
    have hc : p c = false := h c (List.mem_cons_self _ _)
    cases t with
    | nil => simp [collapseRuns, hc]
    | cons d u =>
      have hd : p d = false := h d (List.mem_cons_of_mem _ (List.mem_cons_self _ _))
      have ht : collapseRuns p r (d :: u) = d :: u :=
        ih (fun x hx => h x (List.mem_cons_of_mem _ hx))
      simp [collapseRuns, hc, hd, ht]

theorem collapseRuns_eq_self_single {p : Char → Bool} {r : Char}
    (hr : ∀ c, p c = true → c = r) :
    ∀ {l : List Char}, hasAdjPair p l = false → collapseRuns p r l = l := by
  intro l
  induction l with
  | nil => intro _; rfl
  | cons c t ih =>
    intro h
    cases t with
    | nil =>
      by_cases hc : p c = true
      · simp [collapseRuns, hc, hr c hc]
      · simp [collapseRuns, hc]
    | cons d u =>
      rw [hasAdjPair, Bool.or_eq_false_iff] at h
      have hcd : (p c && p d) = false := h.1
      have ht : collapseRuns p r (d :: u) = d :: u := ih h.2
      by_cases hc : p c = true
      · have hd : p d = false := by
          cases h' : p d with
          | false => rfl
          | true => rw [hc, h'] at hcd; exact absurd hcd (by decide)
        simp [collapseRuns, hcd, hc, hr c hc, hd, ht]
      · simp [collapseRuns, hcd, hc, ht]

theorem head?_collapseRuns_not {p : Char → Bool} {r d : Char} (hd : p d = false)
    (u : List Char) : (collapseRuns p r (d :: u)).head? = some d := by
  cases u with
  | nil => simp [collapseRuns, hd]
  | cons x v =>
    have hcd : (p d && p x) = false := by rw [hd]; rfl
    simp [collapseRuns, hcd, hd]

theorem hasAdjPair_collapseRuns {p : Char → Bool} {r : Char} :
    ∀ l : List Char, hasAdjPair p (collapseRuns p r l) = false := by
  intro l
  induction l with
  | nil => rfl
  | cons c t ih =>
    cases t with
    | nil =>
      by_cases hc : p c = true <;> simp [collapseRuns, hc, hasAdjPair]
    | cons d u =>
      by_cases hcd : (p c && p d) = true
      · rw [show collapseRuns p r (c :: d :: u) = collapseRuns p r (d :: u) by
          simp [collapseRuns, hcd]]
        exact ih
      · rw [show collapseRuns p r (c :: d :: u) =
            (if p c then r else c) :: collapseRuns p r (d :: u) by
          simp [collapseRuns, hcd]]
        rw [hasAdjPair_cons_eq, Bool.or_eq_false_iff]
        refine ⟨?_, ih⟩
        by_cases hc : p c = true
        · have hpd : p d = false := by
            cases h' : p d with
            | false => rfl
            | true =>
              rw [hc, h'] at hcd
              exact absurd rfl hcd
          rw [head?_collapseRuns_not hpd u]
          show (p (if p c then r else c) && p d) = false
          rw [hpd, Bool.and_false]
        · rw [if_neg hc]
          cases hhd : (collapseRuns p r (d :: u)).head? with
          | none => rfl
          | some y =>
            show (p c && p y) = false
            have hc' : p c = false := by
              cases h' : p c with
              | false => rfl
              | true => exact absurd h' hc
            rw [hc', Bool.false_and]

/-! ### Helper lemmas: stripping -/

theorem dropWhileRight_extends (p : Char → Bool) :
    ∀ l : List Char, ∃ t, dropWhileRight p l ++ t = l := by
  intro l
  induction l with
  | nil => exact ⟨[], rfl⟩
  | cons c rest ih =>
    cases h : dropWhileRight p rest with
    | nil =>
      by_cases hc : p c = true
      · refine ⟨c :: rest, ?_⟩
        simp [dropWhileRight, h, hc]
      · refine ⟨rest, ?_⟩
        simp [dropWhileRight, h, hc]
    | cons x xs =>
      obtain ⟨t, ht⟩ := ih
      rw [h] at ht
      refine ⟨t, ?_⟩
      simp only [dropWhileRight, h]
      rw [List.cons_append, ht]

theorem mem_dropWhileRight {p : Char → Bool} {l : List Char} {x : Char}
    (h : x ∈ dropWhileRight p l) : x ∈ l := by
  obtain ⟨t, ht⟩ := dropWhileRight_extends p l
  rw [← ht]
  exact List.mem_append_left _ h

theorem getLast?_dropWhileRight (p : Char → Bool) :
    ∀ l : List Char, ∀ c, (dropWhileRight p l).getLast? = some c → p c = false := by
  intro l
  induction l with
  | nil => intro c h; cases h
  | cons a rest ih =>
    intro c h
    cases hr : dropWhileRight p rest with
    | nil =>
      rw [dropWhileRight, hr] at h
      by_cases ha : p a = true
      · rw [if_pos ha] at h
        cases h
      · rw [if_neg ha] at h
        cases h
        simpa using ha
    | cons x xs =>
      rw [dropWhileRight, hr] at h
      rw [List.getLast?_cons_cons] at h
      exact ih c (by rw [hr]; exact h)

theorem dropWhileRight_eq_self {p : Char → Bool} :
    ∀ {l : List Char}, (∀ c, l.getLast? = some c → p c = false) → dropWhileRight p l = l := by
  intro l
  induction l with
  | nil => intro _; rfl
  | cons a rest ih =>
    intro h
    cases rest with
    | nil =>
      have ha : p a = false := h a rfl
      simp [dropWhileRight, ha]
    | cons b u =>
      have ht : dropWhileRight p (b :: u) = b :: u :=
        ih (fun c hc => h c (by rw [List.getLast?_cons_cons]; exact hc))
      rw [dropWhileRight, ht]

theorem head?_dropWhile (p : Char → Bool) :
    ∀ l : List Char, ∀ c, (l.dropWhile p).head? = some c → p c = false := by
  intro l
  induction l with
  | nil => intro c h; cases h
  | cons a rest ih =>
    intro c h
    by_cases ha : p a = true
    · rw [List.dropWhile_cons, if_pos ha] at h
      exact ih c h
    · rw [List.dropWhile_cons, if_neg ha] at h
      cases h
      simpa using ha

theorem dropWhile_eq_self_of_head {p : Char → Bool} :
    ∀ {l : List Char}, (∀ c, l.head? = some c → p c = false) → l.dropWhile p = l := by
  intro l h
  cases l with
  | nil => rfl
  | cons a rest =>
    have ha : p a = false := h a rfl
    rw [List.dropWhile_cons, if_neg (by rw [ha]; exact Bool.false_ne_true)]

theorem dropWhile_suffix_exists (p : Char → Bool) :
    ∀ l : List Char, ∃ t, t ++ l.dropWhile p = l := by
  intro l
  induction l with
  | nil => exact ⟨[], rfl⟩
  | cons a rest ih =>
    by_cases ha : p a = true
    · obtain ⟨t, ht⟩ := ih
      refine ⟨a :: t, ?_⟩
      rw [List.dropWhile_cons, if_pos ha, List.cons_append, ht]
    · refine ⟨[], ?_⟩
      rw [List.dropWhile_cons, if_neg ha, List.nil_append]

theorem mem_pyStripWith {p : Char → Bool} {l : List Char} {x : Char}
    (h : x ∈ pyStripWith p l) : x ∈ l := by
  have h₁ : x ∈ l.dropWhile p := mem_dropWhileRight h
  obtain ⟨t, ht⟩ := dropWhile_suffix_exists p l
  rw [← ht]
  exact List.mem_append_right _ h₁

theorem head?_pyStripWith (p : Char → Bool) (l : List Char) :
    ∀ c, (pyStripWith p l).head? = some c → p c = false := by
  intro c h
  unfold pyStripWith at h
  obtain ⟨t, ht⟩ := dropWhileRight_extends p (l.dropWhile p)
  cases hd : dropWhileRight p (l.dropWhile p) with
  | nil => rw [hd] at h; cases h
  | cons x xs =>
    rw [hd] at h
    cases h
    rw [hd] at ht
    apply head?_dropWhile p l
    rw [← ht]
    rfl

theorem getLast?_pyStripWith (p : Char → Bool) (l : List Char) :
    ∀ c, (pyStripWith p l).getLast? = some c → p c = false :=
  fun c h => getLast?_dropWhileRight p (l.dropWhile p) c h

theorem hasAdjPair_pyStripWith {p q : Char → Bool} {l : List Char}
    (h : hasAdjPair q l = false) : hasAdjPair q (pyStripWith p l) = false := by
  obtain ⟨t₁, ht₁⟩ := dropWhile_suffix_exists p l
  have h₁ : hasAdjPair q (l.dropWhile p) = false :=
    hasAdjPair_append_right t₁ (by rw [ht₁]; exact h)
  obtain ⟨t₂, ht₂⟩ := dropWhileRight_extends p (l.dropWhile p)
  unfold pyStripWith
  exact hasAdjPair_append_left (t := t₂) (by rw [ht₂]; exact h₁)

theorem pyStripWith_eq_self {p : Char → Bool} {l : List Char}
    (h₁ : ∀ c, l.head? = some c → p c = false)
    (h₂ : ∀ c, l.getLast? = some c → p c = false) : pyStripWith p l = l := by
  unfold pyStripWith
  rw [dropWhile_eq_self_of_head h₁]
  exact dropWhileRight_eq_self h₂

theorem pyStripWith_eq_self_of_all {p : Char → Bool} {l : List Char}
    (h : ∀ c ∈ l, p c = false) : pyStripWith p l = l :=
  pyStripWith_eq_self (fun c hc => h c (mem_of_head?_eq hc))
    (fun c hc => h c (mem_of_getLast?_eq hc))

/-! ### Helper lemmas: diacritic folding -/

theorem pyReplaceChar_cons (k : Char) (v : List Char) (c : Char) (t : List Char) :
    pyReplaceChar k v (c :: t) = (if c == k then v else [c]) ++ pyReplaceChar k v t := by
  simp [pyReplaceChar]

theorem mem_pyReplaceChar {x k : Char} {v : List Char} :
    ∀ {l : List Char}, x ∈ pyReplaceChar k v l → x ∈ v ∨ (x ∈ l ∧ x ≠ k) := by
  intro l
  induction l with
  | nil => intro h; simp [pyReplaceChar] at h
  | cons c t ih =>
    intro h
    rw [pyReplaceChar_cons] at h
    rcases List.mem_append.mp h with h₁ | h₁
    · by_cases hc : (c == k) = true
      · rw [if_pos hc] at h₁
        left
        exact h₁
      · rw [if_neg hc] at h₁
        have hx : x = c := List.mem_singleton.mp h₁
        right
        refine ⟨by rw [hx]; exact List.mem_cons_self _ _, ?_⟩
        rw [hx]
        intro hck
        exact hc (by rw [hck]; exact beq_self_eq_true k)
    · rcases ih h₁ with h₂ | ⟨h₃, h₄⟩
      · left; exact h₂
      · right; exact ⟨List.mem_cons_of_mem _ h₃, h₄⟩

theorem pyReplaceChar_eq_self {k : Char} {v : List Char} :
    ∀ {l : List Char}, k ∉ l → pyReplaceChar k v l = l := by
  intro l
  induction l with
  | nil => intro _; rfl
  | cons c t ih =>
    intro h
    have hck : (c == k) = false := by
      rw [beq_eq_false_iff_ne]
      intro hce
      exact h (by rw [← hce]; exact List.mem_cons_self _ _)
    rw [pyReplaceChar_cons, hck]
    rw [ih (fun hk => h (List.mem_cons_of_mem _ hk))]
    rfl

theorem mem_foldl_pyReplace :
    ∀ (P : List (Char × String)) (l : List Char) (x : Char),
      x ∈ P.foldl (fun acc kv => pyReplaceChar kv.1 kv.2.toList acc) l →
      (∃ kv ∈ P, x ∈ kv.2.toList) ∨ (x ∈ l ∧ ∀ kv ∈ P, x ≠ kv.1) := by
  intro P
  induction P with
  | nil =>
    intro l x h
    right
    exact ⟨h, by intro kv hkv; cases hkv⟩
  | cons kv rest ih =>
    intro l x h
    rw [List.foldl_cons] at h
    rcases ih _ x h with ⟨kv', h₁, h₂⟩ | ⟨h₁, h₂⟩
    · left; exact ⟨kv', List.mem_cons_of_mem _ h₁, h₂⟩
    · rcases mem_pyReplaceChar h₁ with h₃ | ⟨h₃, h₄⟩
      · left; exact ⟨kv, List.mem_cons_self _ _, h₃⟩
      · right
        refine ⟨h₃, ?_⟩
        intro kv' hkv'
        rcases List.mem_cons.mp hkv' with h₅ | h₅
        · rw [h₅]; exact h₄
        · exact h₂ kv' h₅

theorem foldl_pyReplace_eq_self :
    ∀ (P : List (Char × String)) (l : List Char),
      (∀ kv ∈ P, kv.1 ∉ l) →
      P.foldl (fun acc kv => pyReplaceChar kv.1 kv.2.toList acc) l = l := by
  intro P
  induction P with
  | nil => intro l _; rfl
  | cons kv rest ih =>
    intro l h
    rw [List.foldl_cons, pyReplaceChar_eq_self (h kv (List.mem_cons_self _ _))]
    exact ih l (fun kv' hkv' => h kv' (List.mem_cons_of_mem _ hkv'))

theorem map_eq_self_of {f : Char → Char} :
    ∀ {l : List Char}, (∀ c ∈ l, f c = c) → l.map f = l := by
  intro l
  induction l with
  | nil => intro _; rfl
  | cons c t ih =>
    intro h
    rw [List.map_cons, h c (List.mem_cons_self _ _),
      ih (fun x hx => h x (List.mem_cons_of_mem _ hx))]

/-! ### Invariants of the normalized slug -/

/-- The properties every character of a normalized slug satisfies:
no whitespace, fixed under lowercasing, not a diacritic-table key, and
either a hyphen or a word character. -/
def slugChar (c : Char) : Prop :=
  isPySpace c = false ∧ pyToLower c = c ∧ (∀ kv ∈ foldPairs, c ≠ kv.1) ∧
    (c = '-' ∨ isWordChar c = true)

theorem slugChar_hyphen : slugChar '-' := by
  refine ⟨by decide, by decide, by decide, Or.inl rfl⟩

set_option maxHeartbeats 2000000 in
theorem foldPairs_values_ok : ∀ kv ∈ foldPairs, ∀ c ∈ kv.2.toList,
    isPySpace c = false ∧ pyToLower c = c ∧ (∀ kv' ∈ foldPairs, c ≠ kv'.1) ∧
    isWordChar c = true := by decide

theorem cleanList_chars {l : List Char} : ∀ c ∈ cleanList l, slugChar c := by
  intro c hc
  unfold cleanList at hc
  have h₆ := mem_pyStripWith hc
  rcases mem_collapseRuns h₆ with h | ⟨h₅, _⟩
  · rw [h]; exact slugChar_hyphen
  · rcases mem_foldl_pyReplace foldPairs _ c h₅ with ⟨kv, hkv, hcv⟩ | ⟨h₄, hnk⟩
    · obtain ⟨hs, hl, hk, hw⟩ := foldPairs_values_ok kv hkv c hcv
      exact ⟨hs, hl, hk, Or.inr hw⟩
    · obtain ⟨d, hd, hdc⟩ := List.mem_map.mp h₄
      rcases mem_collapseRuns hd with h | ⟨h₂, hdns⟩
      · rw [← hdc, h, pyToLower_hyphen]
        exact slugChar_hyphen
      · have h₁ := mem_pyStripWith h₂
        have hpred := (List.mem_filter.mp h₁).2
        rcases Bool.or_eq_true_iff.mp hpred with hwd | hdash
        · rcases Bool.or_eq_true_iff.mp hwd with hword | hspace
          · refine ⟨?_, ?_, hnk, Or.inr ?_⟩
            · rw [← hdc]; exact pyToLower_not_space d hdns
            · rw [← hdc]; exact pyToLower_idem d
            · rw [← hdc]; exact pyToLower_word hword
          · rw [hspace] at hdns; cases hdns
        · have hdd : d = '-' := by
            have := beq_iff_eq.mp hdash
            exact this
          rw [← hdc, hdd, pyToLower_hyphen]
          exact slugChar_hyphen

theorem cleanList_noAdj (l : List Char) :
    hasAdjPair (fun c => c == '-') (cleanList l) = false := by
  unfold cleanList
  exact hasAdjPair_pyStripWith (hasAdjPair_collapseRuns _)

theorem cleanList_head (l : List Char) :
    ∀ c, (cleanList l).head? = some c → c ≠ '-' := by
  intro c h
  have hb : (c == '-') = false := head?_pyStripWith _ _ c h
  exact beq_eq_false_iff_ne.mp hb

theorem cleanList_last (l : List Char) :
    ∀ c, (cleanList l).getLast? = some c → c ≠ '-' := by
  intro c h
  have hb : (c == '-') = false := getLast?_pyStripWith _ _ c h
  exact beq_eq_false_iff_ne.mp hb

set_option maxHeartbeats 2000000 in
/-- C10: For every input string, the Name Normalizer's output contains
no whitespace characters, contains no run of two or more consecutive
hyphens, and neither starts nor ends with a hyphen; empty input yields
the empty string. -/
theorem normalizer_slug_invariant (s : String) :
    (∀ c ∈ (clean_company_name s).toList, isPySpace c = false) ∧
    hasAdjPair (fun c => c == '-') (clean_company_name s).toList = false ∧
    (∀ c, (clean_company_name s).toList.head? = some c → c ≠ '-') ∧
    (∀ c, (clean_company_name s).toList.getLast? = some c → c ≠ '-') ∧
    clean_company_name "" = "" := by
  by_cases hs : s = ""
  · subst hs
    refine ⟨?_, rfl, ?_, ?_, rfl⟩
    · intro c hc
      exact absurd hc (by intro h; cases h)
    · intro c h
      cases h
    · intro c h
      cases h
  · rw [clean_toList_of_ne hs]
    exact ⟨fun c hc => (cleanList_chars c hc).1, cleanList_noAdj _, cleanList_head _,
      cleanList_last _, rfl⟩

set_option maxHeartbeats 2000000 in
/-- Witness for `normalizer_slug_invariant` at a concrete input (the
slug of "Müller & Co. KG" starts with 'm', which is not whitespace and
not a hyphen). -/
theorem normalizer_slug_invariant_witness :
    isPySpace 'm' = false ∧ ('m' : Char) ≠ '-' :=
  ⟨(normalizer_slug_invariant "Müller & Co. KG").1 'm' (by decide),
   (normalizer_slug_invariant "Müller & Co. KG").2.2.1 'm' (by decide)⟩

set_option maxHeartbeats 2000000 in
/-- C3 (amended): the Name Normalizer is idempotent on every input whose
normalized form is left unchanged by a second pass of legal-suffix
stripping.  (Unconditional idempotence fails: diacritic folding runs
after suffix stripping, so a fold can create a legal-suffix word that
only the second pass removes — see `normalize_idempotence_cex`.) -/
theorem normalize_idempotent_of_suffix_stable (s : String)
    (h : stripSuffixes (clean_company_name s).toList = (clean_company_name s).toList) :
    clean_company_name (clean_company_name s) = clean_company_name s := by
  by_cases hs : s = ""
  · subst hs
    rfl
  · rw [clean_company_name_of_ne hs] at h ⊢
    rw [toList_mk] at h
    set Y := cleanList s.toList with hY
    by_cases hY0 : Y = []
    · rw [hY0]
      decide
    · have hne : ¬ (String.mk Y = "") := by
        intro hmk
        apply hY0
        have := congrArg String.toList hmk
        rw [toList_mk] at this
        exact this
      rw [clean_company_name_of_ne hne, toList_mk]
      have hchars : ∀ c ∈ Y, slugChar c := by
        rw [hY]
        exact cleanList_chars
      have h₁ : (stripSuffixes Y).filter
          (fun c => isWordChar c || isPySpace c || c == '-') = Y := by
        rw [h]
        apply List.filter_eq_self.mpr
        intro c hc
        rcases (hchars c hc).2.2.2 with hd | hw
        · rw [hd]
          decide
        · rw [hw]
          rfl
      have h₂ : pyStripWith isPySpace Y = Y :=
        pyStripWith_eq_self_of_all (fun c hc => (hchars c hc).1)
      have h₃ : collapseRuns isPySpace '-' Y = Y :=
        collapseRuns_eq_self_of_not (fun c hc => (hchars c hc).1)
      have h₄ : Y.map pyToLower = Y := map_eq_self_of (fun c hc => (hchars c hc).2.1)
      have h₅ : foldDiacritics Y = Y := by
        unfold foldDiacritics
        apply foldl_pyReplace_eq_self
        intro kv hkv hmem
        exact absurd rfl ((hchars kv.1 hmem).2.2.1 kv hkv)
      have h₆ : collapseRuns (fun c => c == '-') '-' Y = Y := by
        apply collapseRuns_eq_self_single
        · intro c hc
          exact beq_iff_eq.mp hc
        · rw [hY]
          exact cleanList_noAdj _
      have h₇ : pyStripWith (fun c => c == '-') Y = Y := by
        apply pyStripWith_eq_self
        · intro c hc
          rw [beq_eq_false_iff_ne]
          apply cleanList_head s.toList c
          rw [← hY]
          exact hc
        · intro c hc
          rw [beq_eq_false_iff_ne]
          apply cleanList_last s.toList c
          rw [← hY]
          exact hc
      have : cleanList Y = Y := by
        unfold cleanList
        rw [h₁, h₂, h₃, h₄, h₅, h₆, h₇]
      rw [this]

/-- C3 counterexample: normalization is not idempotent as claimed.  On
"ÁG" the first pass folds Á to a only after suffix stripping, producing
the slug "ag"; the second pass then strips "ag" as the legal suffix
"AG", yielding "".  So `normalize(normalize("ÁG")) ≠ normalize("ÁG")`. -/
theorem normalize_idempotence_cex :
    clean_company_name (clean_company_name "ÁG") ≠ clean_company_name "ÁG" := by decide

set_option maxHeartbeats 2000000 in
/-- Witness for `normalize_idempotent_of_suffix_stable` at the concrete
input "Mustermann GmbH" (its slug "mustermann" is suffix-stable). -/
theorem normalize_idempotent_witness :
    clean_company_name (clean_company_name "Mustermann GmbH") =
      clean_company_name "Mustermann GmbH" :=
  normalize_idempotent_of_suffix_stable "Mustermann GmbH" (by decide)

/-- C2 (evaluating the code at the failing input): the code folds ü to
"u", not "ue" — the Python dict literal's duplicate key 'ü' silently
overrides the intended 'ü' → 'ue' entry — so the slug of
"Müller & Co. KG" is "muller-co": it does not contain "mueller" (the
legal suffix "KG" is correctly absent). -/
theorem umlaut_fold_bug_eval :
    clean_company_name "Müller & Co. KG" = "muller-co" ∧
    containsStr "mueller" (clean_company_name "Müller & Co. KG") = false ∧
    containsStr "kg" (lowerStr (clean_company_name "Müller & Co. KG")) = false := by decide

/-! ### Helper lemmas: the candidate builder's loops -/

theorem exists_cons_of_head? {α : Type} {l : List α} {b : α} (h : l.head? = some b) :
    ∃ rest, l = b :: rest := by
  cases l with
  | nil => cases h
  | cons a t =>
    cases h
    exact ⟨t, rfl⟩

theorem tldLoop_eq_filterMap (valid : String → Bool) (dns : String → DnsOutcome)
    (check : Bool) (timeout : Nat) (v : String) :
    ∀ tlds : List String,
      tldLoop valid dns check timeout v tlds =
        tlds.filterMap (fun t =>
          if valid (v ++ t) then
            some (DomainCandidate.mk (v ++ t) v t
              (if check then check_domain_availability valid dns (v ++ t) timeout
               else "unknown"))
          else none) := by
  intro tlds
  induction tlds with
  | nil => rfl
  | cons a rest ih =>
    rw [tldLoop, List.filterMap_cons]
    cases hva : valid (v ++ a) with
    | false => simp [hva, ih]
    | true => simp [hva, ih]

theorem variantLoop_eq_flatMap (valid : String → Bool) (dns : String → DnsOutcome)
    (check : Bool) (timeout : Nat) (tlds : List String) :
    ∀ varList : List String,
      variantLoop valid dns check timeout tlds varList =
        varList.flatMap (fun v => tldLoop valid dns check timeout v tlds) := by
  intro varList
  induction varList with
  | nil => rfl
  | cons v rest ih =>
    rw [variantLoop, ih]
    rfl

/-- The builder's nested loops as a declarative cross-product: for each
variant in enumeration order, one candidate per configured tld passing
domain validation, in tld order (shared helper). -/
theorem generate_full_domains_eq (valid : String → Bool) (dns : String → DnsOutcome)
    (check : Bool) (timeout maxVariants : Nat) (tlds : List String)
    (order : List String → List String) (company_name : String) :
    generate_full_domains valid dns check timeout maxVariants tlds order company_name =
      (generate_domain_variants maxVariants company_name order).flatMap (fun v =>
        tlds.filterMap (fun t =>
          if valid (v ++ t) then
            some (DomainCandidate.mk (v ++ t) v t
              (if check then check_domain_availability valid dns (v ++ t) timeout
               else "unknown"))
          else none)) := by
  unfold generate_full_domains
  rw [variantLoop_eq_flatMap]
  simp only [tldLoop_eq_filterMap]

theorem mem_generate_full_domains_unknown (valid : String → Bool)
    (dns : String → DnsOutcome) (timeout maxVariants : Nat) (tlds : List String)
    (order : List String → List String) (company_name : String) {v t : String}
    (hv : v ∈ generate_domain_variants maxVariants company_name order) (ht : t ∈ tlds)
    (hvt : valid (v ++ t) = true) :
    DomainCandidate.mk (v ++ t) v t "unknown" ∈
      generate_full_domains valid dns false timeout maxVariants tlds order company_name := by
  rw [generate_full_domains_eq]
  rw [List.mem_flatMap]
  refine ⟨v, hv, ?_⟩
  rw [List.mem_filterMap]
  refine ⟨t, ht, ?_⟩
  rw [if_pos hvt]
  rfl

set_option maxHeartbeats 2000000 in
/-- C1: for every set iteration order, building candidates for
"Mustermann GmbH" with tlds [".de", ".com"], maxVariantsPerCompany 5 and
availability checking disabled yields a list containing the candidate
with variant "mustermann", tld ".de", domain "mustermann.de" and status
"unknown". -/
theorem builder_includes_mustermann_de
    (order : List String → List String) (dns : String → DnsOutcome)
    (h : (order (variantSetContents 5 "Mustermann GmbH")).Perm
          (variantSetContents 5 "Mustermann GmbH")) :
    DomainCandidate.mk "mustermann.de" "mustermann" ".de" "unknown" ∈
      generate_full_domains validate_domain dns false 5 5 [".de", ".com"] order
        "Mustermann GmbH" := by
  have hcontents : variantSetContents 5 "Mustermann GmbH" =
      ["mustermann", "mustermann24", "mustermann365", "mustermann2024"] := by decide
  have hlen : (order (variantSetContents 5 "Mustermann GmbH")).length = 4 := by
    rw [h.length_eq, hcontents]
    rfl
  have hvars : generate_domain_variants 5 "Mustermann GmbH" order =
      order (variantSetContents 5 "Mustermann GmbH") := by
    unfold generate_domain_variants
    apply List.take_of_length_le
    rw [hlen]
    decide
  have hmem : "mustermann" ∈ generate_domain_variants 5 "Mustermann GmbH" order := by
    rw [hvars]
    apply h.mem_iff.mpr
    rw [hcontents]
    decide
  have hvalid : validate_domain ("mustermann" ++ ".de") = true := by decide
  have hstep := mem_generate_full_domains_unknown validate_domain dns 5 5 [".de", ".com"]
    order "Mustermann GmbH" hmem (by decide) hvalid
  have heq : ("mustermann" ++ ".de" : String) = "mustermann.de" := by decide
  rw [heq] at hstep
  exact hstep

set_option maxHeartbeats 2000000 in
/-- Witness for `builder_includes_mustermann_de`: the insertion-order
enumeration is a permutation of itself. -/
theorem builder_includes_mustermann_de_witness :
    DomainCandidate.mk "mustermann.de" "mustermann" ".de" "unknown" ∈
      generate_full_domains validate_domain (fun _ => DnsOutcome.resolved) false 5 5
        [".de", ".com"] id "Mustermann GmbH" :=
  builder_includes_mustermann_de id (fun _ => DnsOutcome.resolved) (List.Perm.refl _)

/-! ### Helper lemmas: the head of the variant set -/

/-- `l` is non-empty and starts with `b`. -/
def headedBy (b : String) (l : List String) : Prop := l.head? = some b ∧ l ≠ []

theorem addElem_ne_nil (l : List String) (x : String) : addElem l x ≠ [] := by
  unfold addElem
  split
  · exact List.ne_nil_of_mem (by assumption)
  · simp

theorem head?_addElem (l : List String) (x : String) (hl : l ≠ []) :
    (addElem l x).head? = l.head? := by
  unfold addElem
  split
  · rfl
  · cases l with
    | nil => exact absurd rfl hl
    | cons a t => rfl

theorem headedBy_addElem {b : String} {l : List String} (h : headedBy b l) (x : String) :
    headedBy b (addElem l x) :=
  ⟨by rw [head?_addElem l x h.2]; exact h.1, addElem_ne_nil l x⟩

theorem headedBy_ite {b : String} (c : Prop) [Decidable c] {m l : List String}
    (hm : headedBy b m) (hl : headedBy b l) : headedBy b (if c then m else l) := by
  split
  · exact hm
  · exact hl

theorem headedBy_base (b : String) : headedBy b (addElem [] b) := by
  constructor <;> simp [addElem]

theorem variantSetContents_headedBy {k : Nat} {name : String}
    (h : ¬ clean_company_name name = "") :
    headedBy (clean_company_name name) (variantSetContents k name) := by
  have hname : ¬ name = "" := by
    intro h0
    apply h
    rw [h0]
    rfl
  unfold variantSetContents
  rw [if_neg hname, if_neg h]
  apply headedBy_ite
  · apply headedBy_addElem
    apply headedBy_addElem
    apply headedBy_addElem
    apply headedBy_ite
    · apply headedBy_addElem
      apply headedBy_ite
      · apply headedBy_addElem
        apply headedBy_ite
        · exact headedBy_addElem (headedBy_base _) _
        · exact headedBy_base _
      · apply headedBy_ite
        · exact headedBy_addElem (headedBy_base _) _
        · exact headedBy_base _
    · apply headedBy_ite
      · apply headedBy_addElem
        apply headedBy_ite
        · exact headedBy_addElem (headedBy_base _) _
        · exact headedBy_base _
      · apply headedBy_ite
        · exact headedBy_addElem (headedBy_base _) _
        · exact headedBy_base _
  · apply headedBy_ite
    · apply headedBy_addElem
      apply headedBy_ite
      · apply headedBy_addElem
        apply headedBy_ite
        · exact headedBy_addElem (headedBy_base _) _
        · exact headedBy_base _
      · apply headedBy_ite
        · exact headedBy_addElem (headedBy_base _) _
        · exact headedBy_base _
    · apply headedBy_ite
      · apply headedBy_addElem
        apply headedBy_ite
        · exact headedBy_addElem (headedBy_base _) _
        · exact headedBy_base _
      · apply headedBy_ite
        · exact headedBy_addElem (headedBy_base _) _
        · exact headedBy_base _

/-- C4 (amended): the normalized slug is always a member of the variant
set, and it survives truncation to `k ≥ 1` entries under the insertion
order of the set (it is inserted first).  Under an arbitrary set
iteration order the truncation can drop it — see `slug_truncation_cex`. -/
theorem slug_in_variants_insertion_order (name : String) (k : Nat)
    (hk : 1 ≤ k) (h : clean_company_name name ≠ "") :
    clean_company_name name ∈ variantSetContents k name ∧
    clean_company_name name ∈ generate_domain_variants k name id := by
  have hP := variantSetContents_headedBy (k := k) h
  obtain ⟨rest, hrest⟩ := exists_cons_of_head? hP.1
  constructor
  · rw [hrest]
    exact List.mem_cons_self _ _
  · unfold generate_domain_variants
    show clean_company_name name ∈ (variantSetContents k name).take k
    rw [hrest]
    cases k with
    | zero => cases hk
    | succ n =>
      rw [List.take_succ_cons]
      exact List.mem_cons_self _ _

set_option maxHeartbeats 2000000 in
/-- C4 counterexample: under a legitimate set iteration order — the
Python set's order is hash-dependent, any permutation of the contents
can occur — truncation to k = 3 can drop the slug "mustermann" itself,
so the claim as stated (slug always survives truncation) is false. -/
theorem slug_truncation_cex :
    ¬ (∀ order : List String → List String,
        (order (variantSetContents 3 "Mustermann GmbH")).Perm
          (variantSetContents 3 "Mustermann GmbH") →
        clean_company_name "Mustermann GmbH" ∈
          generate_domain_variants 3 "Mustermann GmbH" order) := by
  intro hcl
  have h := hcl (fun _ => ["mustermann24", "mustermann365", "mustermann2024", "mustermann"])
    (by decide)
  exact absurd h (by decide)

set_option maxHeartbeats 2000000 in
/-- Witness for `slug_in_variants_insertion_order` at "Mustermann GmbH"
with the default budget k = 5. -/
theorem slug_in_variants_witness :
    clean_company_name "Mustermann GmbH" ∈ variantSetContents 5 "Mustermann GmbH" ∧
    clean_company_name "Mustermann GmbH" ∈
      generate_domain_variants 5 "Mustermann GmbH" id :=
  slug_in_variants_insertion_order "Mustermann GmbH" 5 (by decide) (by decide)

/-- C5 (amended): for a fixed iteration order of the variant set the
builder is deterministic — its output is exactly the declarative
variant-major, tld-minor cross-product over the enumerated variants,
with each variant's candidates contiguous and tlds in configured order.
The enumeration order itself is the Python set's hash-dependent
iteration order, not the documented insertion order, so output across
runs is not reproducible — see `builder_determinism_cex`. -/
theorem builder_variant_major_given_order (valid : String → Bool)
    (dns : String → DnsOutcome) (check : Bool) (timeout maxVariants : Nat)
    (tlds : List String) (order : List String → List String) (company_name : String) :
    generate_full_domains valid dns check timeout maxVariants tlds order company_name =
      (generate_domain_variants maxVariants company_name order).flatMap (fun v =>
        tlds.filterMap (fun t =>
          if valid (v ++ t) then
            some (DomainCandidate.mk (v ++ t) v t
              (if check then check_domain_availability valid dns (v ++ t) timeout
               else "unknown"))
          else none)) :=
  generate_full_domains_eq valid dns check timeout maxVariants tlds order company_name

set_option maxHeartbeats 2000000 in
/-- C5 counterexample: two runs differing only in the set's iteration
order — both orders being permutations of the same variant set, which is
all CPython guarantees — produce different candidate lists, so the
builder is not deterministic as claimed. -/
theorem builder_determinism_cex :
    ¬ (∀ o₁ o₂ : List String → List String,
        (o₁ (variantSetContents 5 "Mustermann GmbH")).Perm
          (variantSetContents 5 "Mustermann GmbH") →
        (o₂ (variantSetContents 5 "Mustermann GmbH")).Perm
          (variantSetContents 5 "Mustermann GmbH") →
        generate_full_domains validate_domain (fun _ => DnsOutcome.gaierror) false 5 5
          [".de", ".com"] o₁ "Mustermann GmbH" =
        generate_full_domains validate_domain (fun _ => DnsOutcome.gaierror) false 5 5
          [".de", ".com"] o₂ "Mustermann GmbH") := by
  intro hcl
  have h := hcl id
    (fun _ => ["mustermann24", "mustermann", "mustermann365", "mustermann2024"])
    (by decide) (by decide)
  exact absurd h (by decide)

/-- C7: with availability checking disabled every emitted candidate has
status "unknown"; with checking enabled, a candidate's status is always
one of "available"/"taken"/"error", and any probe failure (an exception
other than the gaierror meaning "unresolvable", timeouts included) is
mapped to "error".  The builder is a total function — no exception can
propagate: `check_domain_availability` catches every exception of its
body. -/
theorem builder_status_policy (valid : String → Bool) (dns : String → DnsOutcome)
    (timeout maxVariants : Nat) (tlds : List String)
    (order : List String → List String) (company_name : String) :
    (∀ c ∈ generate_full_domains valid dns false timeout maxVariants tlds order
        company_name, c.status = "unknown") ∧
    (∀ c ∈ generate_full_domains valid dns true timeout maxVariants tlds order
        company_name,
      (dns c.domain = DnsOutcome.otherExn → c.status = "error") ∧
      (c.status = "available" ∨ c.status = "taken" ∨ c.status = "error")) := by
  constructor
  · intro c hc
    rw [generate_full_domains_eq, List.mem_flatMap] at hc
    obtain ⟨v, _, hc⟩ := hc
    rw [List.mem_filterMap] at hc
    obtain ⟨t, _, hc⟩ := hc
    by_cases hvt : valid (v ++ t) = true
    · rw [if_pos hvt] at hc
      cases hc
      rfl
    · rw [if_neg hvt] at hc
      cases hc
  · intro c hc
    rw [generate_full_domains_eq, List.mem_flatMap] at hc
    obtain ⟨v, _, hc⟩ := hc
    rw [List.mem_filterMap] at hc
    obtain ⟨t, _, hc⟩ := hc
    by_cases hvt : valid (v ++ t) = true
    · rw [if_pos hvt] at hc
      cases hc
      constructor
      · intro hd
        show check_domain_availability valid dns (v ++ t) timeout = "error"
        unfold check_domain_availability
        rw [show (!valid (v ++ t)) = false by rw [hvt]; rfl]
        show (match dns (v ++ t) with
          | DnsOutcome.resolved => "taken"
          | DnsOutcome.gaierror => "available"
          | DnsOutcome.otherExn => "error") = "error"
        rw [show dns (v ++ t) = DnsOutcome.otherExn from hd]
      · show (if true = true then check_domain_availability valid dns (v ++ t) timeout
            else "unknown") = "available" ∨ _ ∨ _
        rw [if_pos rfl]
        unfold check_domain_availability
        rw [show (!valid (v ++ t)) = false by rw [hvt]; rfl]
        cases dns (v ++ t) with
        | resolved =>
          right
          left
          rfl
        | gaierror =>
          left
          rfl
        | otherExn =>
          right
          right
          rfl
    · rw [if_neg hvt] at hc
      cases hc

set_option maxHeartbeats 2000000 in
/-- Witness for `builder_status_policy` at concrete inputs: with a DNS
oracle that always throws a non-gaierror exception, the emitted
candidate's status is "error"; with checking disabled it is "unknown". -/
theorem builder_status_policy_witness :
    (DomainCandidate.mk "mustermann.de" "mustermann" ".de" "error").status = "error" ∧
    (DomainCandidate.mk "mustermann.de" "mustermann" ".de" "unknown").status = "unknown" :=
  ⟨((builder_status_policy (fun _ => true) (fun _ => DnsOutcome.otherExn) 5 5 [".de"] id
      "Mustermann GmbH").2
      (DomainCandidate.mk "mustermann.de" "mustermann" ".de" "error") (by decide)).1
      (by decide),
   (builder_status_policy (fun _ => true) (fun _ => DnsOutcome.otherExn) 5 5 [".de"] id
      "Mustermann GmbH").1
      (DomainCandidate.mk "mustermann.de" "mustermann" ".de" "unknown") (by decide)⟩

theorem memTail {α : Type} {l : List α} {x : α} (h : x ∈ l.tail) : x ∈ l := by
  cases l with
  | nil => cases h
  | cons a t => exact List.mem_cons_of_mem _ h

/-- C6 (amended): the phone normalizer keeps ASCII digits and every '+'
sign, wherever it occurs (not only a leading one); if the stripped
result lacks a leading '+' it replaces a leading '0' by "+49" or
prepends "+49"; the two documented examples hold, every output
character is a digit or '+', and every non-empty output starts with
'+'. -/
theorem phone_normalizer_spec :
    normalize_phone_number "030 1234567" = "+49301234567" ∧
    normalize_phone_number "+49 30 1234567" = "+49301234567" ∧
    (∀ s : String, ∀ c ∈ (normalize_phone_number s).toList, c.isDigit = true ∨ c = '+') ∧
    (∀ s : String, normalize_phone_number s ≠ "" →
      (normalize_phone_number s).toList.head? = some '+') := by
  refine ⟨by decide, by decide, ?_, ?_⟩
  · intro s c hc
    by_cases hs : s = ""
    · rw [hs] at hc
      have h0 : (normalize_phone_number "").toList = [] := by decide
      rw [h0] at hc
      cases hc
    · unfold normalize_phone_number at hc
      rw [if_neg hs] at hc
      simp only [] at hc
      have hmem : ∀ x, x ∈ s.toList.filter (fun c => c.isDigit || c == '+') →
          x.isDigit = true ∨ x = '+' := by
        intro x hx
        have hp := (List.mem_filter.mp hx).2
        rcases Bool.or_eq_true_iff.mp hp with h₁ | h₂
        · left
          exact h₁
        · right
          exact beq_iff_eq.mp h₂
      by_cases hcond : (s.toList.filter (fun c => c.isDigit || c == '+') ≠ [] ∧
          (s.toList.filter (fun c => c.isDigit || c == '+')).head? ≠ some '+')
      · rw [if_pos hcond] at hc
        by_cases h0 : (s.toList.filter (fun c => c.isDigit || c == '+')).head? = some '0'
        · rw [if_pos h0, toList_mk] at hc
          rcases List.mem_cons.mp hc with h₁ | h₁
          · right
            exact h₁
          rcases List.mem_cons.mp h₁ with h₂ | h₂
          · left
            rw [h₂]
            decide
          rcases List.mem_cons.mp h₂ with h₃ | h₃
          · left
            rw [h₃]
            decide
          · exact hmem c (memTail h₃)
        · rw [if_neg h0, toList_mk] at hc
          rcases List.mem_cons.mp hc with h₁ | h₁
          · right
            exact h₁
          rcases List.mem_cons.mp h₁ with h₂ | h₂
          · left
            rw [h₂]
            decide
          rcases List.mem_cons.mp h₂ with h₃ | h₃
          · left
            rw [h₃]
            decide
          · exact hmem c h₃
      · rw [if_neg hcond, toList_mk] at hc
        exact hmem c hc
  · intro s hne
    by_cases hs : s = ""
    · refine absurd ?_ hne
      rw [hs]
      decide
    · unfold normalize_phone_number at hne ⊢
      rw [if_neg hs] at hne ⊢
      simp only [] at hne ⊢
      by_cases hcond : (s.toList.filter (fun c => c.isDigit || c == '+') ≠ [] ∧
          (s.toList.filter (fun c => c.isDigit || c == '+')).head? ≠ some '+')
      · rw [if_pos hcond] at hne ⊢
        by_cases h0 : (s.toList.filter (fun c => c.isDigit || c == '+')).head? = some '0'
        · rw [if_pos h0]
          rfl
        · rw [if_neg h0]
          rfl
      · rw [if_neg hcond] at hne ⊢
        rw [toList_mk]
        have hn : s.toList.filter (fun c => c.isDigit || c == '+') ≠ [] := by
          intro h0
          apply hne
          rw [h0]
        by_cases hh : (s.toList.filter (fun c => c.isDigit || c == '+')).head? = some '+'
        · exact hh
        · exact absurd ⟨hn, hh⟩ hcond

/-- C6 counterexample: the normalizer does not strip a non-leading '+':
on "030+12" the interior '+' survives into "+4930+12", so the claim
"strips every character except digits and a leading +" is false. -/
theorem phone_plus_strip_cex :
    normalize_phone_number "030+12" = "+4930+12" ∧
    ((normalize_phone_number "030+12").toList.drop 1).all Char.isDigit = false := by decide

/-- Witness for `phone_normalizer_spec` at concrete inputs. -/
theorem phone_normalizer_spec_witness :
    (Char.isDigit '0' = true ∨ ('0' : Char) = '+') ∧
    (normalize_phone_number "7").toList.head? = some '+' :=
  ⟨phone_normalizer_spec.2.2.1 "030 1234567" '0' (by decide),
   phone_normalizer_spec.2.2.2 "7" (by decide)⟩

/-! ### Helper lemmas: the listing locator -/

theorem selectFirst_spec (p : Page) :
    ∀ (pre : List String) (s : String) (post : List String),
      (∀ x ∈ pre, p.select x = []) → p.select s ≠ [] →
      selectFirst p (pre ++ s :: post) = p.select s := by
  intro pre
  induction pre with
  | nil =>
    intro s post _ hs
    simp only [List.nil_append, selectFirst]
    rw [if_pos hs]
  | cons a pre' ih =>
    intro s post hpre hs
    simp only [List.cons_append, selectFirst]
    rw [hpre a (List.mem_cons_self _ _)]
    rw [if_neg (fun h => h rfl)]
    exact ih s post (fun x hx => hpre x (List.mem_cons_of_mem _ hx)) hs

/-- C8: the Listing Locator tries the fixed selector list in priority
order and returns exactly the matches of the first selector yielding at
least one element; selectors after it are not consulted and their
matches are not unioned in. -/
theorem locator_first_match_wins (p : Page) (pre : List String) (s : String)
    (post : List String) (hsel : company_selectors = pre ++ s :: post)
    (hpre : ∀ x ∈ pre, p.select x = []) (hs : p.select s ≠ []) :
    locate p = p.select s := by
  unfold locate
  rw [hsel, selectFirst_spec p pre s post hpre hs, if_pos hs]

/-- A page on which both `.company-item` and `.listing-item` match. -/
def samplePage : Page :=
  { select := fun sel =>
      if sel = ".company-item" then [⟨"Beta GmbH"⟩]
      else if sel = ".listing-item" then [⟨"Gamma AG"⟩]
      else []
    blocks := [] }

/-- Witness for `locator_first_match_wins`: on a page where both
`.company-item` and `.listing-item` match, only the earlier selector's
matches are returned. -/
theorem locator_first_match_wins_witness :
    locate samplePage = [⟨"Beta GmbH"⟩] ∧
    samplePage.select ".listing-item" = [⟨"Gamma AG"⟩] := by
  have h := locator_first_match_wins samplePage [".exhibitor-item"] ".company-item"
    [".listing-item", ".directory-entry", "[class*=\"exhibitor\"]",
     "[class*=\"company\"]", "[class*=\"listing\"]"] rfl
    (by
      intro x hx
      have hx' := List.mem_singleton.mp hx
      rw [hx']
      decide)
    (by decide)
  constructor
  · rw [h]
    decide
  · decide

/-! ### Helper lemmas: record validation and the extractor -/

theorem validate_company_data_none_iff (validEmail validUrl : String → Bool)
    (d : CompanyData) :
    validate_company_data validEmail validUrl d = none ↔
      pyStripStr d.company_name = "" := by
  unfold validate_company_data
  by_cases h : pyStripStr d.company_name = ""
  · rw [if_pos h]
    simp [h]
  · rw [if_neg h]
    simp [h]

/-- C9: the Field Extractor returns `none` (absent) exactly when no
usable company name is found — the resolved name is missing, empty or
whitespace-only; absence of a name is the only condition rejecting the
whole record, and the extractor is a total function (every Python
exception path, including the `ValueError` of validation, is caught and
returned as `None`). -/
theorem extractor_absent_iff (phoneSearches : List (String → Option String))
    (emailSearch boothSearch : String → Option String)
    (validEmail validUrl : String → Bool) (el : ListingElement) (source_url : String) :
    parse_company_from_element phoneSearches emailSearch boothSearch validEmail validUrl
        el source_url = none ↔
      pyStripStr ((resolveName el).getD "") = "" := by
  cases hr : resolveName el with
  | none =>
    have hnone : parse_company_from_element phoneSearches emailSearch boothSearch
        validEmail validUrl el source_url = none := by
      unfold parse_company_from_element
      rw [hr]
    rw [hnone]
    constructor
    · intro _
      decide
    · intro _
      rfl
  | some nm =>
    unfold parse_company_from_element
    rw [hr]
    simp only [Option.getD_some]
    by_cases hnm : nm = ""
    · rw [if_pos hnm, hnm]
      constructor
      · intro _
        decide
      · intro _
        rfl
    · rw [if_neg hnm]
      by_cases haddr : (String.join ((el.addressBlocks.filter (fun t => t ≠ "")).map
          (fun t => t ++ "\n"))) ≠ ""
      · rw [if_pos haddr, validate_company_data_none_iff]
      · rw [if_neg haddr, validate_company_data_none_iff]

/-- Witness for `extractor_absent_iff`: an empty / whitespace-only
listing element yields an absent record, not an error. -/
theorem extractor_absent_witness :
    parse_company_from_element [] (fun _ => none) (fun _ => none) (fun _ => true)
      (fun _ => true) emptyElement "" = none :=
  (extractor_absent_iff [] (fun _ => none) (fun _ => none) (fun _ => true) (fun _ => true)
    emptyElement "").mpr (by decide)
